import Mathlib

/-!
The WebSocket relay of `main.go`: registry (`Room`) and session (`ClientSock`).

A shallow embedding of the broker in `src/project/main.go`.

* A `*ClientSock` is a heap address (`Nat`, the index of the object in `World.heap`).
  A dereference of an address that holds no object is Go's nil-pointer panic.
* `Room.clients`, a `map[*ClientSock]bool`, is an association list of its entries.
  The order in which `for client := range r.clients` visits the keys is chosen by the
  Go runtime; every loop over the map takes that order as the argument `order`, and the
  theorems quantify over every `order` that is a permutation of the keys.
* `ClientSock.send` is made by `make(chan []byte)`: it has no buffer, and `ch <- v`
  returns only when a receiver takes `v`.  The one receiver is the loop of
  `ClientSock.write` of the session.  A channel is the sequence of values its receiver
  has taken (`queue`, in sending order), whether `close` has been called on it
  (`closed`), and whether the `write` loop of its session is still receiving
  (`receiver`).  A send on an open channel whose receiver has gone never returns.
* The outcome of a call is `Outcome.ok` with its result, `Outcome.panic` with the
  message of the runtime, or `Outcome.blocked` when the call never returns.
* `[]byte` and `string` hold the same bytes, so `[]byte(s)` and `string(b)` are the
  identity on `String`.
* `json.Marshal` belongs to the standard library; the functions that call it take the
  encoder as the argument `marshal`.
* `r.mu` makes `getAllClients`, `sendPrivateMessage` and each case of `Room.run` atomic
  with respect to one another; each is one function on `World`.  The `"static"` case of
  `ClientSock.read` takes the lock once for each of its calls, and `Room.run` can handle
  values in between: `ClientSock.read` takes those values as arguments.
-/

/-- The outcome of a call: it returns, it panics, or it never returns. -/
inductive Outcome (α : Type) where
  | ok (a : α)
  | panic (msg : String)
  | blocked
deriving DecidableEq

/-- The `MessageWeb` struct (lines 33-37). -/
structure MessageWeb where
  To : String
  From : String
  Message : String
deriving DecidableEq

/-- A `chan []byte` without buffer: the values its receiver has taken, whether it has
been closed, and whether the goroutine that receives from it is still receiving. -/
structure Chan where
  queue : List String
  closed : Bool
  receiver : Bool
deriving DecidableEq

/-- The `ClientSock` struct (lines 18-23): `id` and `send`.  `conn` is the transport's
connection and `room` the one registry of the process. -/
structure ClientSock where
  id : String
  send : Chan
deriving DecidableEq

/-- The `Room` struct (lines 26-31): the entries of the map `clients`.  The channels
`register` and `unregister` carry the `Event`s that `Room.run` handles. -/
structure Room where
  clients : List (Nat × Bool)
deriving DecidableEq

/-- The objects allocated so far and the registry. -/
structure World where
  heap : List ClientSock
  room : Room
deriving DecidableEq

/-- A value received by `Room.run` on `r.register` or on `r.unregister`. -/
inductive Event where
  | register (client : Nat)
  | unregister (client : Nat)
deriving DecidableEq

/-- The runtime error of dereferencing a pointer that holds no object. -/
def nilDeref : String := "invalid memory address or nil pointer dereference"

/-- The keys of a map. -/
def mapKeys (m : List (Nat × Bool)) : List Nat := m.map Prod.fst

/-- The `ok` of `_, ok := m[k]`. -/
def mapHas (m : List (Nat × Bool)) (k : Nat) : Bool := m.any fun e => e.1 == k

/-- The map after `m[k] = v`. -/
def mapSet (m : List (Nat × Bool)) (k : Nat) (v : Bool) : List (Nat × Bool) :=
  if mapHas m k then m.map fun e => if e.1 == k then (k, v) else e else m ++ [(k, v)]

/-- The map after `delete(m, k)`. -/
def mapDelete (m : List (Nat × Bool)) (k : Nat) : List (Nat × Bool) :=
  m.filter fun e => e.1 != k

/-- The statement `ch <- v` on a channel without buffer: a panic on a closed channel, a
hand-over to the receiver while it receives, and no return once the receiver has gone. -/
def Chan.sendOn (ch : Chan) (v : String) : Outcome Chan :=
  if ch.closed then .panic "send on closed channel"
  else if ch.receiver then .ok { ch with queue := ch.queue ++ [v] }
  else .blocked

/-- The statement `close(ch)`. -/
def Chan.close (ch : Chan) : Outcome Chan :=
  if ch.closed then .panic "close of closed channel"
  else .ok { ch with closed := true }

/-- The function `newRoom` (lines 40-46): an empty map. -/
def newRoom : Room := { clients := [] }

/-- One case of the `select` of `Room.run` (lines 52-62). -/
def Room.runCase (w : World) : Event → Outcome World
  | .register client =>
    .ok { w with room := { clients := mapSet w.room.clients client true } }
  | .unregister client =>
    if mapHas w.room.clients client then
      match w.heap[client]? with
      | none => .panic nilDeref
      | some c =>
        match c.send.close with
        | .panic e => .panic e
        | .blocked => .blocked
        | .ok ch =>
          .ok { heap := w.heap.set client { c with send := ch },
                room := { clients := mapDelete w.room.clients client } }
    else .ok w

/-- The loop of `Room.run` (lines 49-65) over the values it receives, in order. -/
def Room.run (w : World) : List Event → Outcome World
  | [] => .ok w
  | e :: es =>
    match Room.runCase w e with
    | .panic msg => .panic msg
    | .blocked => .blocked
    | .ok w1 => Room.run w1 es

/-- The `for ... range r.clients` loop of `sendPrivateMessage` (lines 117-122), visiting
the keys in the order given. -/
def Room.sendPrivateMessage.loop (recipientID out : String) (heap : List ClientSock) :
    List Nat → Outcome (List ClientSock)
  | [] => .ok heap
  | p :: rest =>
    match heap[p]? with
    | none => .panic nilDeref
    | some client =>
      if client.id = recipientID then
        match client.send.sendOn out with
        | .panic e => .panic e
        | .blocked => .blocked
        | .ok ch => .ok (heap.set p { client with send := ch })
      else Room.sendPrivateMessage.loop recipientID out heap rest

/-- The method `Room.sendPrivateMessage` (lines 109-123). -/
def Room.sendPrivateMessage (marshal : MessageWeb → String) (order : List Nat) (w : World)
    (senderID recipientID msg : String) : Outcome World :=
  let new_msg : MessageWeb := { To := senderID, From := recipientID, Message := msg }
  let out := marshal new_msg
  match Room.sendPrivateMessage.loop recipientID out w.heap order with
  | .panic e => .panic e
  | .blocked => .blocked
  | .ok heap => .ok { w with heap := heap }

/-- The `for ... range r.clients` loop of `getAllClients` (lines 129-131). -/
def Room.getAllClients.loop (heap : List ClientSock) :
    List Nat → List String → Outcome (List String)
  | [], clients_online => .ok clients_online
  | p :: rest, clients_online =>
    match heap[p]? with
    | none => .panic nilDeref
    | some client => Room.getAllClients.loop heap rest (clients_online ++ [client.id])

/-- The method `Room.getAllClients` (lines 125-136).  The result is the pair that Go
returns, a nil slice being `[]` and a nil error `none`, with the state it leaves. -/
def Room.getAllClients (order : List Nat) (w : World) :
    Outcome ((List String × Option String) × World) :=
  match Room.getAllClients.loop w.heap order [] with
  | .panic e => .panic e
  | .blocked => .blocked
  | .ok clients_online =>
    if clients_online.length = 0 then .ok (([], some "empty clients"), w)
    else .ok ((clients_online, none), w)

/-- The rest of the `"static"` case of `ClientSock.read` once `getAllClients` has
returned `res` (lines 89-92), from the state `w` in which its first call takes the lock.
When both calls are made, `between` holds the values that `Room.run` handles after the
first has released the lock and before the second takes it. -/
def ClientSock.read.staticReply (marshal : MessageWeb → String) (oErr oSend : List Nat)
    (between : List Event) (w : World) (id : String) (message : MessageWeb)
    (res : List String × Option String) : Outcome World :=
  match res.2 with
  | none => Room.sendPrivateMessage marshal oSend w id message.From (",".intercalate res.1)
  | some err =>
    match Room.sendPrivateMessage marshal oErr w id message.From err with
    | .panic e => .panic e
    | .blocked => .blocked
    | .ok w1 =>
      match Room.run w1 between with
      | .panic e => .panic e
      | .blocked => .blocked
      | .ok w2 =>
        Room.sendPrivateMessage marshal oSend w2 id message.From (",".intercalate res.1)

/-- The body of the loop of `ClientSock.read` for one decoded `message` (lines 85-95),
on the session at address `c`.  `oList`, `oErr` and `oSend` are the orders of the map
iterations of `getAllClients`, of the send of the error and of the last send.  In the
`"static"` case `after` holds the values that `Room.run` handles after `getAllClients`
has released the lock and before the next call takes it, and `between` those it handles
between the two sends.  The other case takes the lock once. -/
def ClientSock.read (marshal : MessageWeb → String) (oList oErr oSend : List Nat)
    (after between : List Event) (w : World) (c : Nat) (message : MessageWeb) :
    Outcome World :=
  match w.heap[c]? with
  | none => .panic nilDeref
  | some self =>
    if message.Message = "static" then
      match Room.getAllClients oList w with
      | .panic e => .panic e
      | .blocked => .blocked
      | .ok (res, w0) =>
        match Room.run w0 after with
        | .panic e => .panic e
        | .blocked => .blocked
        | .ok w1 =>
          ClientSock.read.staticReply marshal oErr oSend between w1 self.id message res
    else
      Room.sendPrivateMessage marshal oSend w self.id message.To message.Message

/-- The exit of the loop of `ClientSock.write` (lines 101-105) of the session at `c`
after a failed `WriteMessage`: nothing receives from its channel any more. -/
def ClientSock.writeExit (w : World) (c : Nat) : World :=
  match w.heap[c]? with
  | none => w
  | some cl =>
    { w with heap := w.heap.set c { cl with send := { cl.send with receiver := false } } }

/-- The allocation in `handleWebSocket` (line 147): a new `ClientSock` with a new, open
channel, from which the `write` loop started at line 151 receives.  Returns its address,
which `handleWebSocket` then sends on `room.register`. -/
def handleWebSocket (w : World) (clientID : String) : Nat × World :=
  (w.heap.length,
    { w with heap := w.heap ++ [{ id := clientID, send := ⟨[], false, true⟩ }] })

/-- The identity stored at an address. -/
def World.idOf (w : World) (p : Nat) : Option String := w.heap[p]?.map fun s => s.id

/-- The addresses in the membership set. -/
def World.members (w : World) : List Nat := mapKeys w.room.clients

/-- Every member is an allocated session. -/
def World.Valid (w : World) : Prop := ∀ p ∈ w.members, (w.heap[p]?).isSome = true

/-- Whether the outbound queue of the session at an address has been closed. -/
def World.closedAt (w : World) (p : Nat) : Option Bool :=
  w.heap[p]?.map fun s => s.send.closed

/-- A well-formed registry: the map has one entry per key and every member is an
allocated session whose outbound queue is open. -/
def World.Live (w : World) : Prop :=
  w.members.Nodup ∧ ∀ p ∈ w.members, w.closedAt p = some false

instance World.decidableValid (w : World) : Decidable w.Valid := by
  unfold World.Valid
  infer_instance

instance World.decidableLive (w : World) : Decidable w.Live := by
  unfold World.Live
  infer_instance

/-- The sequence `es` holds a register of `c` with no later unregister of `c`. -/
def Pending (es : List Event) (c : Nat) : Prop :=
  ∃ pre post, es = pre ++ Event.register c :: post ∧ Event.unregister c ∉ post

/-- The sessions that a sequence of events registers, in order. -/
def registered : List Event → List Nat
  | [] => []
  | .register c :: es => c :: registered es
  | .unregister _ :: es => registered es

/-- The states the program reaches.  `regd` lists the sessions sent on `r.register` so
far: `handleWebSocket` allocates a session (`connect`) and sends it once (`register`);
`read` sends sessions on `r.unregister` and calls `sendPrivateMessage` and
`getAllClients`, each loop over the map in an order of the runtime's choosing; the
`write` loop of any session can exit (`writeExit`). -/
inductive Reachable (marshal : MessageWeb → String) : List Nat → World → Prop where
  | init : Reachable marshal [] { heap := [], room := newRoom }
  | connect (regd : List Nat) (w : World) (clientID : String) :
      Reachable marshal regd w → Reachable marshal regd (handleWebSocket w clientID).2
  | register (regd : List Nat) (w w1 : World) (c : Nat) :
      Reachable marshal regd w → c < w.heap.length → c ∉ regd →
      Room.runCase w (.register c) = .ok w1 → Reachable marshal (c :: regd) w1
  | unregister (regd : List Nat) (w w1 : World) (c : Nat) :
      Reachable marshal regd w →
      Room.runCase w (.unregister c) = .ok w1 → Reachable marshal regd w1
  | send (regd : List Nat) (w w1 : World) (order : List Nat) (s r p : String) :
      Reachable marshal regd w → order.Perm w.members →
      Room.sendPrivateMessage marshal order w s r p = .ok w1 → Reachable marshal regd w1
  | list (regd : List Nat) (w w1 : World) (order : List Nat)
      (res : List String × Option String) :
      Reachable marshal regd w → order.Perm w.members →
      Room.getAllClients order w = .ok (res, w1) → Reachable marshal regd w1
  | writeExit (regd : List Nat) (w : World) (c : Nat) :
      Reachable marshal regd w → Reachable marshal regd (ClientSock.writeExit w c)

/-- The state `w1` is the state `w` after one operation: a case of `Room.run`, a call of
`sendPrivateMessage` or of `getAllClients`, the allocation of a session, or the exit of
a `write` loop. -/
def World.Next (marshal : MessageWeb → String) (w w1 : World) : Prop :=
  (∃ e, Room.runCase w e = .ok w1) ∨
  (∃ order s r p, Room.sendPrivateMessage marshal order w s r p = .ok w1) ∨
  (∃ order res, Room.getAllClients order w = .ok (res, w1)) ∨
  (∃ clientID, w1 = (handleWebSocket w clientID).2) ∨
  (∃ c, w1 = ClientSock.writeExit w c)

/-- A stand-in for `json.Marshal` at test inputs. -/
def sampleMarshal (m : MessageWeb) : String :=
  "to=" ++ m.To ++ ";from=" ++ m.From ++ ";message=" ++ m.Message

/-- Sessions `A` at address 0 and `B` at address 1, both registered, nothing sent. -/
def worldAB : World :=
  { heap := [⟨"A", ⟨[], false, true⟩⟩, ⟨"B", ⟨[], false, true⟩⟩],
    room := { clients := [(0, true), (1, true)] } }

/-- The state `worldAB` after `A` has been unregistered: only `B` is a member. -/
def worldB : World :=
  { heap := [⟨"A", ⟨[], true, true⟩⟩, ⟨"B", ⟨[], false, true⟩⟩],
    room := { clients := [(1, true)] } }

/-- Session `B` allocated by `handleWebSocket`, its register not yet handled. -/
def worldPending : World :=
  { heap := [⟨"B", ⟨[], false, true⟩⟩], room := newRoom }

/-- The identities of the members, one entry for each member. -/
def World.identities (w : World) : List String := w.members.filterMap w.idOf

/-- The session with `v` appended to its outbound queue. -/
def ClientSock.enqueued (cl : ClientSock) (v : String) : ClientSock :=
  { id := cl.id,
    send := { queue := cl.send.queue ++ [v], closed := cl.send.closed,
              receiver := cl.send.receiver } }
/-! ## Lemmas on the map -/

theorem mem_mapKeys_mapSet (m : List (Nat × Bool)) (k : Nat) (v : Bool) (c : Nat) :
    c ∈ mapKeys (mapSet m k v) ↔ c = k ∨ c ∈ mapKeys m := by
  unfold mapSet
  by_cases h : mapHas m k = true
  · rw [if_pos h]
    have hk : k ∈ mapKeys m := by
      simp only [mapHas, List.any_eq_true, beq_iff_eq] at h
      obtain ⟨e, he, rfl⟩ := h
      exact List.mem_map_of_mem _ he
    simp only [mapKeys, List.mem_map, Prod.exists, exists_and_right, exists_eq_right] at hk ⊢
    constructor
    · rintro ⟨b, a, b1, hab, heq⟩
      by_cases hak : a = k
      · simp [hak] at heq
        exact Or.inl heq.1.symm
      · have : ¬ ((a == k) = true) := by simpa using hak
        simp [hak] at heq
        obtain ⟨rfl, rfl⟩ := heq
        exact Or.inr ⟨_, hab⟩
    · rintro (rfl | ⟨b, hb⟩)
      · obtain ⟨b, hb⟩ := hk
        exact ⟨v, c, b, hb, by simp⟩
      · by_cases hck : c = k
        · exact ⟨v, c, b, hb, by simp [hck]⟩
        · exact ⟨b, c, b, hb, by simp [hck]⟩
  · rw [if_neg h]
    simp [mapKeys]
    tauto

theorem mem_mapKeys_mapDelete (m : List (Nat × Bool)) (k c : Nat) :
    c ∈ mapKeys (mapDelete m k) ↔ c ≠ k ∧ c ∈ mapKeys m := by
  simp only [mapKeys, mapDelete, List.mem_map, List.mem_filter, Prod.exists,
    exists_and_right, exists_eq_right, bne_iff_ne, ne_eq]
  tauto

theorem mapHas_iff (m : List (Nat × Bool)) (k : Nat) : mapHas m k = true ↔ k ∈ mapKeys m := by
  simp only [mapHas, List.any_eq_true, beq_iff_eq, mapKeys, List.mem_map]

/-! ## Lemmas on the two loops over the map -/

theorem sendLoop_no_match (r out : String) (heap : List ClientSock) (order : List Nat)
    (h : ∀ q ∈ order, ∃ cl, heap[q]? = some cl ∧ cl.id ≠ r) :
    Room.sendPrivateMessage.loop r out heap order = .ok heap := by
  induction order with
  | nil => rfl
  | cons q rest ih =>
    obtain ⟨cl, hcl, hne⟩ := h q (List.mem_cons_self _ _)
    simp only [Room.sendPrivateMessage.loop, hcl, if_neg hne]
    exact ih fun x hx => h x (List.mem_cons_of_mem _ hx)

theorem sendOn_open (ch : Chan) (v : String) (hop : ch.closed = false) :
    ch.sendOn v
      = if ch.receiver = true then
          .ok { queue := ch.queue ++ [v], closed := ch.closed, receiver := ch.receiver }
        else .blocked := by
  simp only [Chan.sendOn, hop, Bool.false_eq_true, if_false]

theorem sendLoop_first_match (r out : String) (heap : List ClientSock) (order : List Nat)
    (hopen : ∀ q ∈ order, ∃ cl, heap[q]? = some cl ∧ cl.send.closed = false)
    (hr : ∃ q ∈ order, (heap[q]?.map fun s => s.id) = some r) :
    ∃ pre q post cl, order = pre ++ q :: post ∧
      (∀ x ∈ pre, (heap[x]?.map fun s => s.id) ≠ some r) ∧
      heap[q]? = some cl ∧ cl.id = r ∧
      Room.sendPrivateMessage.loop r out heap order
        = if cl.send.receiver = true then .ok (heap.set q (cl.enqueued out))
          else .blocked := by
  induction order with
  | nil =>
    obtain ⟨q, hq, _⟩ := hr
    cases hq
  | cons p rest ih =>
    obtain ⟨cl, hcl, hop⟩ := hopen p (List.mem_cons_self _ _)
    by_cases hid : cl.id = r
    · refine ⟨[], p, rest, cl, rfl, ?_, hcl, hid, ?_⟩
      · intro x hx
        cases hx
      · simp only [Room.sendPrivateMessage.loop, hcl, if_pos hid, sendOn_open _ _ hop,
          ClientSock.enqueued]
        cases cl.send.receiver <;> simp
    · have hr1 : ∃ q ∈ rest, (heap[q]?.map fun s => s.id) = some r := by
        obtain ⟨q, hq, hqr⟩ := hr
        rcases List.mem_cons.mp hq with rfl | hq1
        · rw [hcl] at hqr
          simp only [Option.map_some', Option.some.injEq] at hqr
          exact absurd hqr hid
        · exact ⟨q, hq1, hqr⟩
      obtain ⟨pre, q, post, cq, hsplit, hpre, hcq, hcqid, hloop⟩ :=
        ih (fun x hx => hopen x (List.mem_cons_of_mem _ hx)) hr1
      refine ⟨p :: pre, q, post, cq, by rw [hsplit]; rfl, ?_, hcq, hcqid, ?_⟩
      · intro x hx
        rcases List.mem_cons.mp hx with rfl | hx1
        · rw [hcl]
          simpa using hid
        · exact hpre x hx1
      · simp only [Room.sendPrivateMessage.loop, hcl, if_neg hid]
        exact hloop

theorem closedMap_set (heap : List ClientSock) (c q : Nat) (x : ClientSock) :
    ((heap.set c x)[q]?.map fun s => s.send.closed)
      = if c = q then (heap[q]?.map fun _ => x.send.closed)
        else (heap[q]?.map fun s => s.send.closed) := by
  simp only [List.getElem?_set]
  by_cases h : c = q
  · subst h
    simp only [if_true]
    by_cases hl : c < heap.length
    · simp [hl]
    · simp [hl, List.getElem?_eq_none (Nat.le_of_not_lt hl)]
  · simp only [h, if_false]

theorem sendLoop_frame (r out : String) (heap heap1 : List ClientSock) (order : List Nat)
    (h : Room.sendPrivateMessage.loop r out heap order = .ok heap1) :
    heap1.length = heap.length ∧
      ∀ q : Nat,
        (heap1[q]?.map fun s => s.send.closed) = (heap[q]?.map fun s => s.send.closed) := by
  induction order with
  | nil =>
    simp only [Room.sendPrivateMessage.loop, Outcome.ok.injEq] at h
    subst h
    exact ⟨rfl, fun _ => rfl⟩
  | cons p rest ih =>
    simp only [Room.sendPrivateMessage.loop] at h
    cases hcl : heap[p]? with
    | none => simp only [hcl] at h; cases h
    | some cl =>
      simp only [hcl] at h
      by_cases hid : cl.id = r
      · rw [if_pos hid] at h
        cases hs : cl.send.sendOn out with
        | panic msg => simp only [hs] at h; cases h
        | blocked => simp only [hs] at h; cases h
        | ok ch =>
          simp only [hs, Outcome.ok.injEq] at h
          subst h
          have hch : ch.closed = cl.send.closed := by
            unfold Chan.sendOn at hs
            by_cases hc : cl.send.closed = true
            · rw [if_pos hc] at hs; cases hs
            · rw [if_neg hc] at hs
              by_cases hrec : cl.send.receiver = true
              · rw [if_pos hrec] at hs
                simp only [Outcome.ok.injEq] at hs
                subst hs
                rfl
              · rw [if_neg hrec] at hs; cases hs
          refine ⟨List.length_set _ _ _, fun q => ?_⟩
          rw [closedMap_set]
          by_cases hpq : p = q
          · subst hpq
            simp [hcl, hch]
          · rw [if_neg hpq]
      · rw [if_neg hid] at h
        exact ih h

theorem getAllLoop_eq (heap : List ClientSock) (order : List Nat) (acc : List String)
    (h : ∀ q ∈ order, (heap[q]?).isSome = true) :
    Room.getAllClients.loop heap order acc
      = .ok (acc ++ order.filterMap fun q => heap[q]?.map fun s => s.id) := by
  induction order generalizing acc with
  | nil => simp [Room.getAllClients.loop]
  | cons q rest ih =>
    have hq := h q (List.mem_cons_self _ _)
    obtain ⟨cl, hcl⟩ := Option.isSome_iff_exists.mp hq
    simp only [Room.getAllClients.loop, hcl]
    rw [ih _ fun x hx => h x (List.mem_cons_of_mem _ hx)]
    simp [hcl]

theorem length_filterMap_ids (heap : List ClientSock) (order : List Nat)
    (h : ∀ q ∈ order, (heap[q]?).isSome = true) :
    (order.filterMap fun q => heap[q]?.map fun s => s.id).length = order.length := by
  induction order with
  | nil => rfl
  | cons q rest ih =>
    obtain ⟨cl, hcl⟩ := Option.isSome_iff_exists.mp (h q (List.mem_cons_self _ _))
    simp only [List.filterMap_cons, hcl, Option.map_some', List.length_cons]
    rw [ih fun x hx => h x (List.mem_cons_of_mem _ hx)]

theorem World.Live.valid {w : World} (h : w.Live) : w.Valid := by
  intro p hp
  have := h.2 p hp
  unfold World.closedAt at this
  cases hq : w.heap[p]? with
  | none => rw [hq] at this; cases this
  | some s => rfl

theorem World.Live.open_of_mem {w : World} (h : w.Live) {p : Nat} (hp : p ∈ w.members) :
    ∃ cl, w.heap[p]? = some cl ∧ cl.send.closed = false := by
  have := h.2 p hp
  unfold World.closedAt at this
  cases hq : w.heap[p]? with
  | none => rw [hq] at this; cases this
  | some s =>
    rw [hq] at this
    exact ⟨s, rfl, by simpa using this⟩

/-- A found recipient: the outcome of `sendPrivateMessage` in a well-formed registry. -/
theorem sendPrivateMessage_found (marshal : MessageWeb → String) (w : World)
    (order : List Nat) (s r p : String) (hLive : w.Live) (hOrd : order.Perm w.members)
    (hr : ∃ q ∈ w.members, w.idOf q = some r) :
    ∃ q cl pre post, q ∈ w.members ∧ w.heap[q]? = some cl ∧ cl.id = r ∧
      order = pre ++ q :: post ∧ (∀ x ∈ pre, w.idOf x ≠ some r) ∧
      Room.sendPrivateMessage marshal order w s r p
        = if cl.send.receiver = true then
            .ok { heap := w.heap.set q (cl.enqueued (marshal ⟨s, r, p⟩)), room := w.room }
          else .blocked := by
  have hopen : ∀ q ∈ order, ∃ cl, w.heap[q]? = some cl ∧ cl.send.closed = false :=
    fun q hq => hLive.open_of_mem (hOrd.mem_iff.mp hq)
  have hr1 : ∃ q ∈ order, (w.heap[q]?.map fun s => s.id) = some r := by
    obtain ⟨q, hq, hid⟩ := hr
    exact ⟨q, hOrd.mem_iff.mpr hq, hid⟩
  obtain ⟨pre, q, post, cl, hsplit, hpre, hcl, hid, hloop⟩ :=
    sendLoop_first_match r (marshal ⟨s, r, p⟩) w.heap order hopen hr1
  refine ⟨q, cl, pre, post, ?_, hcl, hid, hsplit, hpre, ?_⟩
  · apply hOrd.mem_iff.mp
    rw [hsplit]
    simp
  · simp only [Room.sendPrivateMessage, hloop]
    cases cl.send.receiver <;> simp

/-- No recipient: `sendPrivateMessage` changes nothing. -/
theorem sendPrivateMessage_absent (marshal : MessageWeb → String) (w : World)
    (order : List Nat) (s r p : String) (hValid : w.Valid) (hOrd : order.Perm w.members)
    (hr : ∀ q ∈ w.members, w.idOf q ≠ some r) :
    Room.sendPrivateMessage marshal order w s r p = .ok w := by
  have h : ∀ q ∈ order, ∃ cl, w.heap[q]? = some cl ∧ cl.id ≠ r := by
    intro q hq
    have hm := hOrd.mem_iff.mp hq
    obtain ⟨cl, hcl⟩ := Option.isSome_iff_exists.mp (hValid q hm)
    refine ⟨cl, hcl, fun hid => hr q hm ?_⟩
    simp [World.idOf, hcl, hid]
  simp only [Room.sendPrivateMessage, sendLoop_no_match r _ w.heap order h]

/-- What `sendPrivateMessage` leaves as it was whenever it returns. -/
theorem send_frame (marshal : MessageWeb → String) (w w1 : World) (order : List Nat)
    (s r p : String) (h : Room.sendPrivateMessage marshal order w s r p = .ok w1) :
    w1.room = w.room ∧ w1.heap.length = w.heap.length ∧
      ∀ q, w1.closedAt q = w.closedAt q := by
  unfold Room.sendPrivateMessage at h
  simp only at h
  cases hl : Room.sendPrivateMessage.loop r (marshal ⟨s, r, p⟩) w.heap order with
  | panic msg => simp only [hl] at h; cases h
  | blocked => simp only [hl] at h; cases h
  | ok heap1 =>
    simp only [hl, Outcome.ok.injEq] at h
    subst h
    obtain ⟨hlen, hcl⟩ := sendLoop_frame r _ w.heap heap1 order hl
    exact ⟨rfl, hlen, hcl⟩

/-- In a well-formed registry `sendPrivateMessage` does not panic. -/
theorem send_no_panic (marshal : MessageWeb → String) (w : World) (order : List Nat)
    (s r p : String) (hL : w.Live) (hOrd : order.Perm w.members) (msg : String) :
    Room.sendPrivateMessage marshal order w s r p ≠ .panic msg := by
  by_cases hr : ∃ q ∈ w.members, w.idOf q = some r
  · obtain ⟨q, cl, _, _, _, _, _, _, _, heq⟩ :=
      sendPrivateMessage_found marshal w order s r p hL hOrd hr
    rw [heq]
    cases cl.send.receiver <;> simp
  · have hr1 : ∀ q ∈ w.members, w.idOf q ≠ some r := fun q hq h => hr ⟨q, hq, h⟩
    rw [sendPrivateMessage_absent marshal w order s r p hL.valid hOrd hr1]
    exact fun h => by cases h

/-- The result of `getAllClients` in a registry whose members are allocated. -/
theorem getAllClients_eq (w : World) (order : List Nat) (hValid : w.Valid)
    (hOrd : order.Perm w.members) :
    Room.getAllClients order w
      = .ok ((if w.members = [] then ([], some "empty clients")
              else (order.filterMap w.idOf, none)), w) := by
  have h : ∀ q ∈ order, (w.heap[q]?).isSome = true := fun q hq => hValid q (hOrd.mem_iff.mp hq)
  have hlen := length_filterMap_ids w.heap order h
  unfold Room.getAllClients
  rw [getAllLoop_eq w.heap order [] h]
  simp only [List.nil_append]
  by_cases hm : w.members = []
  · have ho : order = [] := by
      rw [hm] at hOrd
      exact hOrd.eq_nil
    subst ho
    simp [hm]
  · have ho : order.length ≠ 0 := by
      rw [hOrd.length_eq]
      simpa using hm
    rw [if_neg (by rw [hlen]; exact ho), if_neg hm]
    rfl

theorem getAllClients_state (order : List Nat) (w w1 : World)
    (res : List String × Option String) (h : Room.getAllClients order w = .ok (res, w1)) :
    w1 = w := by
  unfold Room.getAllClients at h
  cases hl : Room.getAllClients.loop w.heap order [] with
  | panic e => simp only [hl] at h; cases h
  | blocked => simp only [hl] at h; cases h
  | ok ids =>
    simp only [hl] at h
    by_cases hz : ids.length = 0
    · rw [if_pos hz] at h
      simp only [Outcome.ok.injEq, Prod.mk.injEq] at h
      exact h.2.symm
    · rw [if_neg hz] at h
      simp only [Outcome.ok.injEq, Prod.mk.injEq] at h
      exact h.2.symm

/-! ## Lemmas on `Room.run` -/

theorem runCase_unregister_absent (w : World) (c : Nat) (h : mapHas w.room.clients c = false) :
    Room.runCase w (.unregister c) = .ok w := by
  simp [Room.runCase, h]

theorem runCase_unregister_member (w : World) (c : Nat) (cl : ClientSock)
    (h : mapHas w.room.clients c = true) (hcl : w.heap[c]? = some cl)
    (hop : cl.send.closed = false) :
    Room.runCase w (.unregister c)
      = .ok { heap := w.heap.set c
                { id := cl.id,
                  send := { queue := cl.send.queue, closed := true,
                            receiver := cl.send.receiver } },
              room := { clients := mapDelete w.room.clients c } } := by
  simp [Room.runCase, h, hcl, Chan.close, hop]

theorem runCase_register_members (w w1 : World) (d : Nat)
    (h : Room.runCase w (.register d) = .ok w1) (c : Nat) :
    c ∈ w1.members ↔ c = d ∨ c ∈ w.members := by
  simp only [Room.runCase, Outcome.ok.injEq] at h
  subst h
  exact mem_mapKeys_mapSet _ _ _ _

theorem runCase_unregister_members (w w1 : World) (d : Nat)
    (h : Room.runCase w (.unregister d) = .ok w1) (c : Nat) :
    c ∈ w1.members ↔ c ≠ d ∧ c ∈ w.members := by
  simp only [Room.runCase] at h
  by_cases hm : mapHas w.room.clients d = true
  · rw [if_pos hm] at h
    cases hcl : w.heap[d]? with
    | none => simp only [hcl] at h; cases h
    | some cl =>
      simp only [hcl] at h
      cases hch : cl.send.close with
      | panic msg => simp only [hch] at h; cases h
      | blocked => simp only [hch] at h; cases h
      | ok ch =>
        simp only [hch, Outcome.ok.injEq] at h
        subst h
        exact mem_mapKeys_mapDelete _ _ _
  · rw [if_neg hm] at h
    simp only [Outcome.ok.injEq] at h
    subst h
    have hd : d ∉ mapKeys w.room.clients := fun hd => hm ((mapHas_iff _ _).mpr hd)
    simp only [World.members]
    constructor
    · intro hc
      exact ⟨fun hcd => hd (hcd ▸ hc), hc⟩
    · exact fun hc => hc.2

theorem pending_cons (e : Event) (es : List Event) (c : Nat) :
    Pending (e :: es) c ↔ (e = .register c ∧ Event.unregister c ∉ es) ∨ Pending es c := by
  constructor
  · rintro ⟨pre, post, hsplit, hpost⟩
    cases pre with
    | nil =>
      simp only [List.nil_append, List.cons.injEq] at hsplit
      obtain ⟨rfl, rfl⟩ := hsplit
      exact Or.inl ⟨rfl, hpost⟩
    | cons a pre1 =>
      simp only [List.cons_append, List.cons.injEq] at hsplit
      exact Or.inr ⟨pre1, post, hsplit.2, hpost⟩
  · rintro (⟨rfl, hes⟩ | ⟨pre, post, hsplit, hpost⟩)
    · exact ⟨[], es, rfl, hes⟩
    · exact ⟨e :: pre, post, by rw [hsplit]; rfl, hpost⟩

theorem run_members (es : List Event) (w w1 : World) (h : Room.run w es = .ok w1) (c : Nat) :
    c ∈ w1.members ↔ Pending es c ∨ (c ∈ w.members ∧ Event.unregister c ∉ es) := by
  induction es generalizing w with
  | nil =>
    simp only [Room.run, Outcome.ok.injEq] at h
    subst h
    constructor
    · intro hc
      exact Or.inr ⟨hc, List.not_mem_nil _⟩
    · rintro (⟨pre, post, hsplit, _⟩ | hc)
      · cases pre <;> cases hsplit
      · exact hc.1
  | cons e es ih =>
    simp only [Room.run] at h
    cases h1 : Room.runCase w e with
    | panic msg => rw [h1] at h; cases h
    | blocked => rw [h1] at h; cases h
    | ok w2 =>
      rw [h1] at h
      rw [ih w2 h, pending_cons]
      cases e with
      | register d =>
        rw [runCase_register_members w w2 d h1 c]
        simp only [Event.register.injEq, List.mem_cons, false_or, reduceCtorEq]
        constructor
        · rintro (hp | ⟨rfl | hc, hn⟩)
          · exact Or.inl (Or.inr hp)
          · exact Or.inl (Or.inl ⟨rfl, hn⟩)
          · exact Or.inr ⟨hc, hn⟩
        · rintro ((⟨rfl, hn⟩ | hp) | ⟨hc, hn⟩)
          · exact Or.inr ⟨Or.inl rfl, hn⟩
          · exact Or.inl hp
          · exact Or.inr ⟨Or.inr hc, hn⟩
      | unregister d =>
        rw [runCase_unregister_members w w2 d h1 c]
        simp only [reduceCtorEq, false_and, false_or, List.mem_cons, Event.unregister.injEq,
          not_or]
        tauto

/-! ## Preservation of well-formedness -/

theorem mapKeys_mapDelete (m : List (Nat × Bool)) (k : Nat) :
    mapKeys (mapDelete m k) = (mapKeys m).filter fun x => x != k := by
  induction m with
  | nil => rfl
  | cons e m ih =>
    simp only [mapKeys, mapDelete, List.map_cons, List.filter_cons] at ih ⊢
    by_cases h : (e.1 != k) = true
    · simp only [h, if_true, List.map_cons, ih]
    · have h1 : (e.1 != k) = false := by simpa using h
      simp [h1, ih]

theorem mapKeys_mapSet_absent (m : List (Nat × Bool)) (k : Nat) (v : Bool)
    (h : k ∉ mapKeys m) : mapKeys (mapSet m k v) = mapKeys m ++ [k] := by
  have hk : ¬ (mapHas m k = true) := fun hk => h ((mapHas_iff _ _).mp hk)
  simp [mapSet, hk, mapKeys]

theorem closedAt_set (w : World) (c q : Nat) (x : ClientSock) (r : Room) :
    World.closedAt { heap := w.heap.set c x, room := r } q
      = if c = q then (w.heap[q]?.map fun _ => x.send.closed) else w.closedAt q :=
  closedMap_set w.heap c q x

theorem live_register (w : World) (c : Nat) (hL : w.Live) (hc : c ∉ w.members)
    (ho : w.closedAt c = some false) :
    World.Live { heap := w.heap, room := { clients := mapSet w.room.clients c true } } := by
  have hk : World.members { heap := w.heap, room := { clients := mapSet w.room.clients c true } }
      = w.members ++ [c] := mapKeys_mapSet_absent _ _ _ hc
  refine ⟨?_, ?_⟩
  · rw [hk]
    exact List.Nodup.append hL.1 (List.nodup_singleton c)
      (by
        intro x hx hx1
        rw [List.mem_singleton] at hx1
        exact hc (hx1 ▸ hx))
  · intro p hp
    rw [hk, List.mem_append, List.mem_singleton] at hp
    rcases hp with hp | rfl
    · exact hL.2 p hp
    · exact ho

theorem live_unregister (w : World) (c : Nat) (hL : w.Live) :
    ∃ w1, Room.runCase w (.unregister c) = .ok w1 ∧ w1.Live ∧
      w1.heap.length = w.heap.length ∧
      ∀ q, q ∉ w.members → w1.closedAt q = w.closedAt q := by
  by_cases hm : mapHas w.room.clients c = true
  · have hmem : c ∈ w.members := (mapHas_iff _ _).mp hm
    obtain ⟨cl, hcl, hop⟩ := hL.open_of_mem hmem
    refine ⟨_, runCase_unregister_member w c cl hm hcl hop, ⟨?_, ?_⟩, ?_, ?_⟩
    · show (mapKeys (mapDelete w.room.clients c)).Nodup
      rw [mapKeys_mapDelete]
      exact hL.1.filter _
    · intro p hp
      have hp1 : p ≠ c ∧ p ∈ mapKeys w.room.clients := (mem_mapKeys_mapDelete _ _ _).mp hp
      rw [closedAt_set, if_neg (Ne.symm hp1.1)]
      exact hL.2 p hp1.2
    · simp
    · intro q hq
      have hne : c ≠ q := fun h => hq (h ▸ hmem)
      rw [closedAt_set, if_neg hne]
  · have hm1 : mapHas w.room.clients c = false := by simpa using hm
    exact ⟨w, runCase_unregister_absent w c hm1, hL, rfl, fun _ _ => rfl⟩

theorem live_of_frame (w w1 : World) (hL : w.Live) (hroom : w1.room = w.room)
    (hcl : ∀ q, w1.closedAt q = w.closedAt q) : w1.Live := by
  refine ⟨?_, ?_⟩
  · simp only [World.members, hroom]
    exact hL.1
  · intro p hp
    rw [hcl]
    simp only [World.members, hroom] at hp
    exact hL.2 p hp

theorem writeExit_room (w : World) (c : Nat) : (ClientSock.writeExit w c).room = w.room := by
  unfold ClientSock.writeExit
  cases w.heap[c]? <;> rfl

theorem writeExit_length (w : World) (c : Nat) :
    (ClientSock.writeExit w c).heap.length = w.heap.length := by
  unfold ClientSock.writeExit
  cases w.heap[c]? with
  | none => rfl
  | some cl => exact List.length_set _ _ _

theorem writeExit_closedAt (w : World) (c q : Nat) :
    (ClientSock.writeExit w c).closedAt q = w.closedAt q := by
  unfold ClientSock.writeExit
  cases hcl : w.heap[c]? with
  | none => rfl
  | some cl =>
    simp only
    rw [closedAt_set]
    by_cases h : c = q
    · subst h
      simp [World.closedAt, hcl]
    · rw [if_neg h]

/-- The invariant of the reachable states: the registry is well-formed, every member has
been registered, and a session not yet registered has an open queue. -/
theorem reachable_inv (marshal : MessageWeb → String) (regd : List Nat) (w : World)
    (h : Reachable marshal regd w) :
    w.Live ∧ (∀ q ∈ w.members, q ∈ regd) ∧
      ∀ q, q < w.heap.length → q ∉ regd → w.closedAt q = some false := by
  induction h with
  | init =>
    refine ⟨⟨List.nodup_nil, ?_⟩, ?_, ?_⟩
    · intro p hp
      cases hp
    · intro q hq
      cases hq
    · intro q hq
      simp at hq
  | connect regd w clientID _ ih =>
    obtain ⟨hL, hsub, hfresh⟩ := ih
    have hcl : ∀ q, q < w.heap.length →
        (handleWebSocket w clientID).2.closedAt q = w.closedAt q := by
      intro q hq
      simp only [handleWebSocket, World.closedAt, List.getElem?_append_left hq]
    refine ⟨⟨hL.1, ?_⟩, hsub, ?_⟩
    · intro p hp
      have hp1 : p ∈ w.members := hp
      have hlt : p < w.heap.length := by
        obtain ⟨cl, hcl1, _⟩ := hL.open_of_mem hp1
        exact (List.getElem?_eq_some.mp hcl1).1
      rw [hcl p hlt]
      exact hL.2 p hp1
    · intro q hq hn
      simp only [handleWebSocket, List.length_append, List.length_singleton] at hq
      by_cases hlt : q < w.heap.length
      · rw [hcl q hlt]
        exact hfresh q hlt hn
      · have : q = w.heap.length := by omega
        subst this
        simp [handleWebSocket, World.closedAt]
  | register regd w w1 c _ hlt hn hstep ih =>
    obtain ⟨hL, hsub, hfresh⟩ := ih
    simp only [Room.runCase, Outcome.ok.injEq] at hstep
    subst hstep
    have hc : c ∉ w.members := fun hc => hn (hsub c hc)
    refine ⟨live_register w c hL hc (hfresh c hlt hn), ?_, ?_⟩
    · intro q hq
      have hq1 : q ∈ mapKeys (mapSet w.room.clients c true) := hq
      rw [mem_mapKeys_mapSet] at hq1
      rcases hq1 with rfl | hq1
      · exact List.mem_cons_self _ _
      · exact List.mem_cons_of_mem _ (hsub q hq1)
    · intro q hq hnq
      exact hfresh q hq fun h => hnq (List.mem_cons_of_mem _ h)
  | unregister regd w w1 c _ hstep ih =>
    obtain ⟨hL, hsub, hfresh⟩ := ih
    obtain ⟨w2, hw2, hL2, hlen, hcl⟩ := live_unregister w c hL
    rw [hstep] at hw2
    simp only [Outcome.ok.injEq] at hw2
    subst hw2
    refine ⟨hL2, ?_, ?_⟩
    · intro q hq
      exact hsub q ((runCase_unregister_members w w1 c hstep q).mp hq).2
    · intro q hq hnq
      rw [hcl q fun h => hnq (hsub q h)]
      exact hfresh q (hlen ▸ hq) hnq
  | send regd w w1 order s r p _ hOrd hstep ih =>
    obtain ⟨hL, hsub, hfresh⟩ := ih
    obtain ⟨hroom, hlen, hcl⟩ := send_frame marshal w w1 order s r p hstep
    refine ⟨live_of_frame w w1 hL hroom hcl, ?_, ?_⟩
    · intro q hq
      simp only [World.members, hroom] at hq
      exact hsub q hq
    · intro q hq hnq
      rw [hcl q]
      exact hfresh q (hlen ▸ hq) hnq
  | list regd w w1 order res _ _ hstep ih =>
    rw [getAllClients_state order w w1 res hstep]
    exact ih
  | writeExit regd w c _ ih =>
    obtain ⟨hL, hsub, hfresh⟩ := ih
    have hroom := writeExit_room w c
    have hcl := writeExit_closedAt w c
    refine ⟨live_of_frame w _ hL hroom hcl, ?_, ?_⟩
    · intro q hq
      simp only [World.members, hroom] at hq
      exact hsub q hq
    · intro q hq hnq
      rw [hcl q]
      exact hfresh q (writeExit_length w c ▸ hq) hnq

/-- A run that registers only sessions that are not members and have open queues, each
once, completes and leaves a well-formed registry. -/
theorem run_completes (es : List Event) (w : World) (hL : w.Live)
    (hnd : (registered es).Nodup)
    (hfresh : ∀ c ∈ registered es, c ∉ w.members ∧ w.closedAt c = some false) :
    ∃ w1, Room.run w es = .ok w1 ∧ w1.Live := by
  induction es generalizing w with
  | nil => exact ⟨w, rfl, hL⟩
  | cons e es ih =>
    cases e with
    | register c =>
      simp only [registered, List.nodup_cons] at hnd
      have hc := hfresh c (by simp [registered])
      have hL1 := live_register w c hL hc.1 hc.2
      obtain ⟨w1, hrun, hL2⟩ := ih _ hL1 hnd.2 (by
        intro d hd
        have hdw := hfresh d (by simp [registered, hd])
        refine ⟨?_, hdw.2⟩
        intro hmem
        have hmem1 : d ∈ mapKeys (mapSet w.room.clients c true) := hmem
        rw [mem_mapKeys_mapSet] at hmem1
        rcases hmem1 with rfl | hmem1
        · exact hnd.1 hd
        · exact hdw.1 hmem1)
      exact ⟨w1, by simpa only [Room.run, Room.runCase] using hrun, hL2⟩
    | unregister c =>
      simp only [registered] at hnd hfresh
      obtain ⟨w2, hw2, hL2, _, hcl⟩ := live_unregister w c hL
      obtain ⟨w1, hrun, hL1⟩ := ih w2 hL2 hnd (by
        intro d hd
        have hdw := hfresh d hd
        refine ⟨?_, ?_⟩
        · intro hmem
          exact hdw.1 ((runCase_unregister_members w w2 c hw2 d).mp hmem).2
        · rw [hcl d hdw.1]
          exact hdw.2)
      refine ⟨w1, ?_, hL1⟩
      simp only [Room.run, hw2]
      exact hrun


/-! ## A closed queue stays closed -/

theorem runCase_closed_persists (w w1 : World) (e : Event) (c : Nat)
    (h : Room.runCase w e = .ok w1) (hc : w.closedAt c = some true) :
    w1.closedAt c = some true := by
  cases e with
  | register d =>
    simp only [Room.runCase, Outcome.ok.injEq] at h
    subst h
    exact hc
  | unregister d =>
    simp only [Room.runCase] at h
    by_cases hm : mapHas w.room.clients d = true
    · rw [if_pos hm] at h
      cases hcl : w.heap[d]? with
      | none => simp only [hcl] at h; cases h
      | some cl =>
        simp only [hcl] at h
        cases hch : cl.send.close with
        | panic msg => simp only [hch] at h; cases h
        | blocked => simp only [hch] at h; cases h
        | ok ch =>
          simp only [hch, Outcome.ok.injEq] at h
          subst h
          rw [closedAt_set]
          by_cases hdc : d = c
          · subst hdc
            have hchc : ch.closed = true := by
              unfold Chan.close at hch
              by_cases hcc : cl.send.closed = true
              · rw [if_pos hcc] at hch; cases hch
              · rw [if_neg hcc] at hch
                simp only [Outcome.ok.injEq] at hch
                subst hch
                rfl
            simp [hcl, hchc]
          · rw [if_neg hdc]
            exact hc
    · rw [if_neg hm] at h
      simp only [Outcome.ok.injEq] at h
      subst h
      exact hc

theorem next_closed_persists (marshal : MessageWeb → String) (w w1 : World) (c : Nat)
    (h : World.Next marshal w w1) (hc : w.closedAt c = some true) :
    w1.closedAt c = some true := by
  rcases h with ⟨e, he⟩ | ⟨order, s, r, p, hs⟩ | ⟨order, res, hg⟩ | ⟨clientID, rfl⟩ | ⟨d, rfl⟩
  · exact runCase_closed_persists w w1 e c he hc
  · rw [(send_frame marshal w w1 order s r p hs).2.2 c]
    exact hc
  · rw [getAllClients_state order w w1 res hg]
    exact hc
  · have hlt : c < w.heap.length := by
      unfold World.closedAt at hc
      cases hq : w.heap[c]? with
      | none => rw [hq] at hc; cases hc
      | some cl => exact (List.getElem?_eq_some.mp hq).1
    simp only [handleWebSocket, World.closedAt, List.getElem?_append_left hlt]
    exact hc
  · rw [writeExit_closedAt]
    exact hc

/-! ## States used at test inputs -/

theorem reachable_worldAB : Reachable sampleMarshal [1, 0] worldAB :=
  Reachable.register [0]
    ⟨[⟨"A", ⟨[], false, true⟩⟩, ⟨"B", ⟨[], false, true⟩⟩], ⟨[(0, true)]⟩⟩ worldAB 1
    (Reachable.connect [0] ⟨[⟨"A", ⟨[], false, true⟩⟩], ⟨[(0, true)]⟩⟩ "B"
      (Reachable.register [] ⟨[⟨"A", ⟨[], false, true⟩⟩], newRoom⟩
        ⟨[⟨"A", ⟨[], false, true⟩⟩], ⟨[(0, true)]⟩⟩ 0
        (Reachable.connect [] ⟨[], newRoom⟩ "A" Reachable.init)
        (by decide) (by decide) rfl))
    (by decide) (by decide) rfl

theorem reachable_worldB : Reachable sampleMarshal [1, 0] worldB :=
  Reachable.unregister [1, 0] worldAB worldB 0 reachable_worldAB rfl

/-- C2. For a decoded message whose `Message` is not `"static"`, the body of the read
loop on the session at `c` is exactly `sendPrivateMessage c.id message.To
message.Message`, in one lock section: the sender is the identity of the connection,
whatever `message.From` holds, and the text is passed on as it is.  In a well-formed
registry with a member of identity `message.To`, its whole effect is the append of the
encoded envelope `{To := c.id, From := message.To, Message := message.Message}` to the
queue of one such member when the `write` loop of that member is receiving, and it never
returns when that loop has exited. -/
theorem read_forwards_message (marshal : MessageWeb → String) (oList oErr oSend : List Nat)
    (after between : List Event) (w : World) (c : Nat) (self : ClientSock)
    (message : MessageWeb) (hc : w.heap[c]? = some self)
    (hm : message.Message ≠ "static") :
    ClientSock.read marshal oList oErr oSend after between w c message
        = Room.sendPrivateMessage marshal oSend w self.id message.To message.Message ∧
      (w.Live → oSend.Perm w.members → (∃ q ∈ w.members, w.idOf q = some message.To) →
        ∃ q cl, q ∈ w.members ∧ w.heap[q]? = some cl ∧ cl.id = message.To ∧
          ClientSock.read marshal oList oErr oSend after between w c message
            = if cl.send.receiver = true then
                .ok { heap := w.heap.set q
                        { id := cl.id,
                          send := { queue := cl.send.queue
                                      ++ [marshal ⟨self.id, message.To, message.Message⟩],
                                    closed := cl.send.closed,
                                    receiver := cl.send.receiver } },
                      room := w.room }
              else .blocked) := by
  have heq : ClientSock.read marshal oList oErr oSend after between w c message
      = Room.sendPrivateMessage marshal oSend w self.id message.To message.Message := by
    simp only [ClientSock.read, hc, if_neg hm]
  refine ⟨heq, fun hLive hOrd hr => ?_⟩
  obtain ⟨q, cl, _, _, hq, hcl, hid, _, _, hsend⟩ :=
    sendPrivateMessage_found marshal w oSend self.id message.To message.Message hLive hOrd hr
  exact ⟨q, cl, hq, hcl, hid, heq.trans hsend⟩

/-- C2 at the scenario of the specification: with `A` and `B` live, `A` sending
`{to: "B", message: "hi"}` puts the envelope `{to: "A", from: "B", message: "hi"}` on the
queue of `B` and nothing anywhere else. -/
theorem read_forwards_message_witness :
    worldAB.heap[0]? = some ⟨"A", ⟨[], false, true⟩⟩ ∧ "hi" ≠ "static" ∧
      ClientSock.read sampleMarshal [0, 1] [0, 1] [0, 1] [] [] worldAB 0
          ⟨"B", "someone", "hi"⟩
        = .ok { heap := [⟨"A", ⟨[], false, true⟩⟩,
                         ⟨"B", ⟨[sampleMarshal ⟨"A", "B", "hi"⟩], false, true⟩⟩],
                room := { clients := [(0, true), (1, true)] } } :=
  ⟨rfl, by decide,
    (read_forwards_message sampleMarshal [0, 1] [0, 1] [0, 1] [] [] worldAB 0
      ⟨"A", ⟨[], false, true⟩⟩ ⟨"B", "someone", "hi"⟩ rfl (by decide)).1.trans rfl⟩

/-- C3. When every member is an allocated session and none has identity `r`,
`sendPrivateMessage s r p` returns the state it was given: the map, every queue and the
open status of every queue are unchanged, whether the queues are open or closed. -/
theorem sendPrivateMessage_unknown_recipient (marshal : MessageWeb → String) (w : World)
    (order : List Nat) (s r p : String) (hValid : w.Valid) (hOrd : order.Perm w.members)
    (hr : ∀ q ∈ w.members, w.idOf q ≠ some r) :
    Room.sendPrivateMessage marshal order w s r p = .ok w :=
  sendPrivateMessage_absent marshal w order s r p hValid hOrd hr

/-- C3 with `A` and `B` live and the recipient `Z`. -/
theorem sendPrivateMessage_unknown_recipient_witness :
    Room.sendPrivateMessage sampleMarshal [1, 0] worldAB "A" "Z" "hi" = .ok worldAB :=
  sendPrivateMessage_unknown_recipient sampleMarshal worldAB [1, 0] "A" "Z" "hi"
    (by decide) (List.Perm.swap 0 1 []) (by decide)

/-- C4. When every member is an allocated session, `getAllClients` returns the state it
was given together with a result `res` such that: `res` is the empty outcome (no list and
the error `"empty clients"`) exactly when the map is empty, the error is nil exactly when
the map is not empty, and in that case the list is a permutation of the identities of the
members and has one entry for each member. -/
theorem getAllClients_roster (w : World) (order : List Nat) (hValid : w.Valid)
    (hOrd : order.Perm w.members) :
    ∃ res, Room.getAllClients order w = .ok (res, w) ∧
      (res = ([], some "empty clients") ↔ w.members = []) ∧
      (res.2 = none ↔ w.members ≠ []) ∧
      (w.members ≠ [] → res.1.Perm w.identities ∧ res.1.length = w.members.length) := by
  refine ⟨_, getAllClients_eq w order hValid hOrd, ?_, ?_, ?_⟩
  · by_cases hm : w.members = []
    · simp [hm]
    · simp [hm]
  · by_cases hm : w.members = []
    · simp [hm]
    · simp [hm]
  · intro hm
    rw [if_neg hm]
    refine ⟨hOrd.filterMap _, ?_⟩
    have hlen := length_filterMap_ids w.heap order
      fun q hq => hValid q (hOrd.mem_iff.mp hq)
    exact hlen.trans hOrd.length_eq

/-- C4 with `A` and `B` live, the map visited in the order 1, 0. -/
theorem getAllClients_roster_witness :
    ∃ res, Room.getAllClients [1, 0] worldAB = .ok (res, worldAB) ∧
      (res = ([], some "empty clients") ↔ worldAB.members = []) ∧
      (res.2 = none ↔ worldAB.members ≠ []) ∧
      (worldAB.members ≠ [] →
        res.1.Perm worldAB.identities ∧ res.1.length = worldAB.members.length) :=
  getAllClients_roster worldAB [1, 0] (by decide) (List.Perm.swap 0 1 [])

/-- C6.  For every state `w` and session `c`:
(1) if `c` is no member, unregister returns the state it was given, closing nothing;
(2) two unregisters of `c` in a row do what one does;
(3) after an unregister of `c`, whatever registers and unregisters follow, as long as
none of them registers `c` again, a further unregister of `c` returns the state it was
given: `close` is not executed on the queue of `c` again;
(4) a queue that is closed is closed after every operation.
And in every state `w` that the program reaches:
(5) if `c` is a member, its queue is open, and unregister removes `c` from the map and
closes its queue, keeping what was sent on it, and changes nothing else: `c` is no member
of the result and every other address is a member of it exactly when it was one;
(6) unregister of `c` does not panic, the state it leaves is reached too, and a second
unregister of `c` returns that state;
(7) if the queue of `c` is closed, `c` is no member and unregister of `c` returns the
state it was given, so that `close` is executed on no queue twice. -/
theorem unregister_idempotent (w : World) (c : Nat) :
    (c ∉ w.members → Room.runCase w (.unregister c) = .ok w) ∧
      Room.run w [.unregister c, .unregister c] = Room.run w [.unregister c] ∧
      (∀ es w1 w2, Room.runCase w (.unregister c) = .ok w1 → Room.run w1 es = .ok w2 →
        Event.register c ∉ es → Room.runCase w2 (.unregister c) = .ok w2) ∧
      (∀ marshal w1, World.Next marshal w w1 → w.closedAt c = some true →
        w1.closedAt c = some true) ∧
      ∀ marshal regd, Reachable marshal regd w →
        (c ∈ w.members →
          ∃ cl, w.heap[c]? = some cl ∧ cl.send.closed = false ∧
            Room.runCase w (.unregister c)
              = .ok { heap := w.heap.set c
                        { id := cl.id,
                          send := { queue := cl.send.queue, closed := true,
                                    receiver := cl.send.receiver } },
                      room := { clients := mapDelete w.room.clients c } } ∧
            c ∉ mapKeys (mapDelete w.room.clients c) ∧
            ∀ q, q ≠ c → (q ∈ mapKeys (mapDelete w.room.clients c) ↔ q ∈ w.members)) ∧
        (∃ w1, Room.runCase w (.unregister c) = .ok w1 ∧ Reachable marshal regd w1 ∧
          Room.runCase w1 (.unregister c) = .ok w1) ∧
        (w.closedAt c = some true →
          c ∉ w.members ∧ Room.runCase w (.unregister c) = .ok w) := by
  have hgone : ∀ w1, Room.runCase w (.unregister c) = .ok w1 → c ∉ w1.members :=
    fun w1 h hc => ((runCase_unregister_members w w1 c h c).mp hc).1 rfl
  have hnoop : ∀ w2 : World, c ∉ w2.members → Room.runCase w2 (.unregister c) = .ok w2 := by
    intro w2 hc
    apply runCase_unregister_absent
    cases hh : mapHas w2.room.clients c with
    | false => rfl
    | true => exact absurd ((mapHas_iff _ _).mp hh) hc
  refine ⟨hnoop w, ?_, ?_, ?_, ?_⟩
  · cases h1 : Room.runCase w (.unregister c) with
    | panic msg => simp only [Room.run, h1]
    | blocked => simp only [Room.run, h1]
    | ok w1 => simp only [Room.run, h1, hnoop w1 (hgone w1 h1)]
  · intro es w1 w2 h1 hrun hreg
    apply hnoop
    intro hc
    rcases (run_members es w1 w2 hrun c).mp hc with ⟨pre, post, hsplit, _⟩ | ⟨hc1, _⟩
    · exact hreg (by rw [hsplit]; simp)
    · exact hgone w1 h1 hc1
  · intro marshal w1 hnext hcl
    exact next_closed_persists marshal w w1 c hnext hcl
  · intro marshal regd hreach
    have hL := (reachable_inv marshal regd w hreach).1
    refine ⟨?_, ?_, ?_⟩
    · intro hmem
      obtain ⟨cl, hcl, hop⟩ := hL.open_of_mem hmem
      refine ⟨cl, hcl, hop,
        runCase_unregister_member w c cl ((mapHas_iff _ _).mpr hmem) hcl hop, ?_, ?_⟩
      · intro h
        exact ((mem_mapKeys_mapDelete _ _ _).mp h).1 rfl
      · intro q hq
        rw [mem_mapKeys_mapDelete]
        exact ⟨fun h => h.2, fun h => ⟨hq, h⟩⟩
    · obtain ⟨w1, hw1, _⟩ := live_unregister w c hL
      exact ⟨w1, hw1, Reachable.unregister regd w w1 c hreach hw1, hnoop w1 (hgone w1 hw1)⟩
    · intro hcl
      have hc : c ∉ w.members := by
        intro hmem
        rw [hL.2 c hmem] at hcl
        cases hcl
      exact ⟨hc, hnoop w hc⟩

/-- C6 with `A` and `B` live: `A` is unregistered, a second unregister of `A` changes
nothing, also after `B` has been unregistered in between, and the closed queue of `A`
stays closed. -/
theorem unregister_idempotent_witness :
    Room.runCase worldB (.unregister 0) = .ok worldB ∧
      Room.run worldAB [.unregister 0, .unregister 0] = Room.run worldAB [.unregister 0] ∧
      Room.run worldAB [.unregister 0] = .ok worldB ∧
      Room.runCase
          ⟨[⟨"A", ⟨[], true, true⟩⟩, ⟨"B", ⟨[], true, true⟩⟩], ⟨[]⟩⟩ (.unregister 0)
        = .ok ⟨[⟨"A", ⟨[], true, true⟩⟩, ⟨"B", ⟨[], true, true⟩⟩], ⟨[]⟩⟩ ∧
      World.closedAt ⟨[⟨"A", ⟨[], true, true⟩⟩, ⟨"B", ⟨[], true, true⟩⟩], ⟨[]⟩⟩ 0
        = some true ∧
      (∃ cl, worldAB.heap[0]? = some cl ∧ cl.send.closed = false ∧
        Room.runCase worldAB (.unregister 0)
          = .ok { heap := worldAB.heap.set 0
                    { id := cl.id,
                      send := { queue := cl.send.queue, closed := true,
                                receiver := cl.send.receiver } },
                  room := { clients := mapDelete worldAB.room.clients 0 } } ∧
        0 ∉ mapKeys (mapDelete worldAB.room.clients 0) ∧
        ∀ q, q ≠ 0 → (q ∈ mapKeys (mapDelete worldAB.room.clients 0) ↔ q ∈ worldAB.members)) ∧
      (∃ w1, Room.runCase worldAB (.unregister 0) = .ok w1 ∧
        Reachable sampleMarshal [1, 0] w1 ∧ Room.runCase w1 (.unregister 0) = .ok w1) ∧
      (0 ∉ worldB.members ∧ Room.runCase worldB (.unregister 0) = .ok worldB) :=
  ⟨(unregister_idempotent worldB 0).1 (by decide),
    (unregister_idempotent worldAB 0).2.1,
    rfl,
    (unregister_idempotent worldAB 0).2.2.1 [.unregister 1] worldB
      ⟨[⟨"A", ⟨[], true, true⟩⟩, ⟨"B", ⟨[], true, true⟩⟩], ⟨[]⟩⟩ rfl rfl (by decide),
    (unregister_idempotent worldB 0).2.2.2.1 sampleMarshal
      ⟨[⟨"A", ⟨[], true, true⟩⟩, ⟨"B", ⟨[], true, true⟩⟩], ⟨[]⟩⟩
      (Or.inl ⟨.unregister 1, rfl⟩) rfl,
    ((unregister_idempotent worldAB 0).2.2.2.2 sampleMarshal [1, 0] reachable_worldAB).1
      (by decide),
    ((unregister_idempotent worldAB 0).2.2.2.2 sampleMarshal [1, 0] reachable_worldAB).2.1,
    ((unregister_idempotent worldB 0).2.2.2.2 sampleMarshal [1, 0] reachable_worldB).2.2
      rfl⟩

/-- C7. For every heap and every sequence `es` of register and unregister events handled
by `Room.run` from the empty map of `newRoom`:
(1) whenever the run completes, a session is a member of the final map if and only if
`es` holds a register of it with no later unregister of it;
(2) one event on a session `d` leaves the membership of every other session as it was;
(3) the run does complete when the sessions of the heap have open queues and `es`
registers allocated sessions only, each at most once, as `handleWebSocket` does. -/
theorem run_membership (heap : List ClientSock) (es : List Event) :
    (∀ w1, Room.run ⟨heap, newRoom⟩ es = .ok w1 → ∀ c, c ∈ w1.members ↔ Pending es c) ∧
      (∀ (w w1 : World) (d c : Nat), c ≠ d →
        (Room.runCase w (.register d) = .ok w1 ∨ Room.runCase w (.unregister d) = .ok w1) →
        (c ∈ w1.members ↔ c ∈ w.members)) ∧
      ((∀ s ∈ heap, s.send.closed = false) → (registered es).Nodup →
        (∀ c ∈ registered es, c < heap.length) →
        ∃ w1, Room.run ⟨heap, newRoom⟩ es = .ok w1 ∧ ∀ c, c ∈ w1.members ↔ Pending es c) := by
  have h1 : ∀ w1, Room.run ⟨heap, newRoom⟩ es = .ok w1 → ∀ c, c ∈ w1.members ↔ Pending es c := by
    intro w1 hrun c
    rw [run_members es _ w1 hrun c]
    constructor
    · rintro (hp | ⟨hc, _⟩)
      · exact hp
      · cases hc
    · exact Or.inl
  refine ⟨h1, ?_, ?_⟩
  · intro w w1 d c hcd hstep
    rcases hstep with hstep | hstep
    · rw [runCase_register_members w w1 d hstep c]
      exact ⟨fun h => h.resolve_left hcd, Or.inr⟩
    · rw [runCase_unregister_members w w1 d hstep c]
      exact ⟨fun h => h.2, fun h => ⟨hcd, h⟩⟩
  · intro hopen hnd hvalid
    have hL : World.Live ⟨heap, newRoom⟩ := by
      refine ⟨List.nodup_nil, ?_⟩
      intro p hp
      cases hp
    obtain ⟨w1, hrun, _⟩ := run_completes es ⟨heap, newRoom⟩ hL hnd (by
      intro c hc
      refine ⟨(fun h => by cases h), ?_⟩
      have hlt := hvalid c hc
      simp only [World.closedAt, List.getElem?_eq_getElem hlt, Option.map_some']
      rw [hopen _ (List.getElem_mem hlt)])
    exact ⟨w1, hrun, h1 w1 hrun⟩

/-- C7 at three fresh sessions: 0 and 1 are registered, 0 is unregistered twice and 2 is
unregistered without having been registered; only 1 is a member at the end. -/
theorem run_membership_witness :
    Room.run ⟨[⟨"A", ⟨[], false, true⟩⟩, ⟨"B", ⟨[], false, true⟩⟩, ⟨"C", ⟨[], false, true⟩⟩], newRoom⟩
        [.register 0, .register 1, .unregister 0, .unregister 2, .unregister 0]
        = .ok ⟨[⟨"A", ⟨[], true, true⟩⟩, ⟨"B", ⟨[], false, true⟩⟩, ⟨"C", ⟨[], false, true⟩⟩], ⟨[(1, true)]⟩⟩ ∧
      (∀ c, c ∈ [1] ↔
        Pending [.register 0, .register 1, .unregister 0, .unregister 2, .unregister 0] c) ∧
      (1 ∈ worldB.members ↔ 1 ∈ worldAB.members) ∧
      ∃ w1, Room.run ⟨[⟨"A", ⟨[], false, true⟩⟩, ⟨"B", ⟨[], false, true⟩⟩, ⟨"C", ⟨[], false, true⟩⟩], newRoom⟩
            [.register 0, .register 1, .unregister 0, .unregister 2, .unregister 0] = .ok w1 ∧
          ∀ c, c ∈ w1.members ↔
            Pending [.register 0, .register 1, .unregister 0, .unregister 2, .unregister 0] c :=
  ⟨rfl,
    (run_membership [⟨"A", ⟨[], false, true⟩⟩, ⟨"B", ⟨[], false, true⟩⟩, ⟨"C", ⟨[], false, true⟩⟩]
      [.register 0, .register 1, .unregister 0, .unregister 2, .unregister 0]).1 _ rfl,
    (run_membership [] []).2.1 worldAB worldB 0 1 (by decide) (Or.inr rfl),
    (run_membership [⟨"A", ⟨[], false, true⟩⟩, ⟨"B", ⟨[], false, true⟩⟩, ⟨"C", ⟨[], false, true⟩⟩]
      [.register 0, .register 1, .unregister 0, .unregister 2, .unregister 0]).2.2
      (by decide) (by decide) (by decide)⟩

/-- C8. In every state that the program reaches, the registry is well-formed: every
member is an allocated session whose queue is open.  Hence in such a state an unregister
does not close a closed queue, and for every order of the iteration and all arguments
`sendPrivateMessage` does not panic; whenever it returns it has left the open status of
every queue as it was, and a session whose heap entry it changed had an open queue; and
it does return when the `write` loop of every member is receiving. -/
theorem reachable_members_open (marshal : MessageWeb → String) (regd : List Nat) (w : World)
    (h : Reachable marshal regd w) :
    w.Live ∧
      (∀ c, ∃ w1, Room.runCase w (.unregister c) = .ok w1) ∧
      ∀ (order : List Nat) (s r p : String), order.Perm w.members →
        (∀ msg, Room.sendPrivateMessage marshal order w s r p ≠ .panic msg) ∧
        (∀ w1, Room.sendPrivateMessage marshal order w s r p = .ok w1 →
          (∀ q, w1.closedAt q = w.closedAt q) ∧
          ∀ q, w1.heap[q]? ≠ w.heap[q]? → w.closedAt q = some false) ∧
        ((∀ q ∈ w.members, (w.heap[q]?.map fun cl => cl.send.receiver) = some true) →
          ∃ w1, Room.sendPrivateMessage marshal order w s r p = .ok w1) := by
  have hL := (reachable_inv marshal regd w h).1
  refine ⟨hL, ?_, ?_⟩
  · intro c
    obtain ⟨w1, hw1, _⟩ := live_unregister w c hL
    exact ⟨w1, hw1⟩
  intro order s r p hOrd
  refine ⟨send_no_panic marshal w order s r p hL hOrd, ?_, ?_⟩
  · intro w1 hsend
    refine ⟨(send_frame marshal w w1 order s r p hsend).2.2, ?_⟩
    intro q hq
    by_cases hr : ∃ q ∈ w.members, w.idOf q = some r
    · obtain ⟨q0, cl, _, _, hq0, _, _, _, _, heq⟩ :=
        sendPrivateMessage_found marshal w order s r p hL hOrd hr
      rw [hsend] at heq
      by_cases hrec : cl.send.receiver = true
      · rw [if_pos hrec] at heq
        simp only [Outcome.ok.injEq] at heq
        subst heq
        by_cases hqq : q0 = q
        · subst hqq
          exact hL.2 q0 hq0
        · exact absurd (List.getElem?_set_ne hqq) hq
      · rw [if_neg hrec] at heq
        cases heq
    · have hr1 : ∀ q ∈ w.members, w.idOf q ≠ some r := fun q hq h => hr ⟨q, hq, h⟩
      have heq := sendPrivateMessage_absent marshal w order s r p hL.valid hOrd hr1
      rw [hsend] at heq
      simp only [Outcome.ok.injEq] at heq
      subst heq
      exact absurd rfl hq
  · intro hrecv
    by_cases hr : ∃ q ∈ w.members, w.idOf q = some r
    · obtain ⟨q0, cl, _, _, hq0, hcl, _, _, _, heq⟩ :=
        sendPrivateMessage_found marshal w order s r p hL hOrd hr
      have hrec : cl.send.receiver = true := by
        have := hrecv q0 hq0
        rw [hcl] at this
        simpa using this
      rw [if_pos hrec] at heq
      exact ⟨_, heq⟩
    · have hr1 : ∀ q ∈ w.members, w.idOf q ≠ some r := fun q hq h => hr ⟨q, hq, h⟩
      exact ⟨w, sendPrivateMessage_absent marshal w order s r p hL.valid hOrd hr1⟩

/-- C8 at the state reached by connecting `A` and `B`, registering both and unregistering
`A`. -/
theorem reachable_members_open_witness :
    Reachable sampleMarshal [1, 0] worldB ∧ worldB.Live ∧
      (∀ c, ∃ w1, Room.runCase worldB (.unregister c) = .ok w1) ∧
      ∀ (order : List Nat) (s r p : String), order.Perm worldB.members →
        (∀ msg, Room.sendPrivateMessage sampleMarshal order worldB s r p ≠ .panic msg) ∧
        (∀ w1, Room.sendPrivateMessage sampleMarshal order worldB s r p = .ok w1 →
          (∀ q, w1.closedAt q = worldB.closedAt q) ∧
          ∀ q, w1.heap[q]? ≠ worldB.heap[q]? → worldB.closedAt q = some false) ∧
        ((∀ q ∈ worldB.members,
            (worldB.heap[q]?.map fun cl => cl.send.receiver) = some true) →
          ∃ w1, Room.sendPrivateMessage sampleMarshal order worldB s r p = .ok w1) :=
  ⟨reachable_worldB, reachable_members_open sampleMarshal [1, 0] worldB reachable_worldB⟩

/-- C9, the claim as stated fails: with `A` and `B` live, `A` sends `{to: "Z"}`, no
member has identity `Z`, and the state after the body of the read loop is the state
before it: the queue of `A` is still empty. -/
theorem read_unknown_recipient_not_reported :
    ClientSock.read sampleMarshal [0, 1] [0, 1] [0, 1] [] [] worldAB 0 ⟨"Z", "A", "hi"⟩
        = .ok worldAB ∧
      worldAB.heap[0]? = some ⟨"A", ⟨[], false, true⟩⟩ ∧
      (worldAB.heap.map fun s => s.send.queue) = [[], []] :=
  ⟨rfl, rfl, rfl⟩

/-- C9 as amended.  For a decoded message whose `Message` is not `"static"` and whose
`To` is the identity of no member, the body of the read loop on the session at `c`
returns the state it was given: nothing is put on the queue of the requester or on any
other queue. -/
theorem read_unknown_recipient_dropped (marshal : MessageWeb → String)
    (oList oErr oSend : List Nat) (after between : List Event) (w : World) (c : Nat)
    (self : ClientSock) (message : MessageWeb) (hc : w.heap[c]? = some self)
    (hm : message.Message ≠ "static") (hValid : w.Valid) (hOrd : oSend.Perm w.members)
    (hr : ∀ q ∈ w.members, w.idOf q ≠ some message.To) :
    ClientSock.read marshal oList oErr oSend after between w c message = .ok w := by
  simp only [ClientSock.read, hc, if_neg hm]
  exact sendPrivateMessage_absent marshal w oSend self.id message.To message.Message
    hValid hOrd hr

/-- C9 as amended, with only `B` live and `B` writing to the departed `A`. -/
theorem read_unknown_recipient_dropped_witness :
    ClientSock.read sampleMarshal [1] [1] [1] [] [] worldB 1 ⟨"A", "B", "hello"⟩
      = .ok worldB :=
  read_unknown_recipient_dropped sampleMarshal [1] [1] [1] [] [] worldB 1
    ⟨"B", ⟨[], false, true⟩⟩ ⟨"A", "B", "hello"⟩ rfl (by decide) (by decide)
    (List.Perm.refl _) (by decide)

/-- C10, the code at the failing input.  `B` has been allocated and its register is not
yet handled, so the map is empty and `getAllClients` returns the empty outcome.  The
`"static"` case then calls `sendPrivateMessage` twice, with `"empty clients"` and with
the join of the nil list, the empty string.  While the map is empty neither call finds
`B` and nothing is enqueued; once the register of `B` has been handled both calls enqueue,
and `B` is sent two replies, the second with the empty payload.  The last equation is the
whole body of the read loop with the register of `B` handled right after
`getAllClients`. -/
theorem read_static_empty_sends_twice :
    Room.getAllClients [] worldPending = .ok (([], some "empty clients"), worldPending) ∧
      ClientSock.read sampleMarshal [] [] [] [] [] worldPending 0 ⟨"", "B", "static"⟩
        = .ok worldPending ∧
      Room.runCase worldPending (.register 0)
        = .ok ⟨[⟨"B", ⟨[], false, true⟩⟩], ⟨[(0, true)]⟩⟩ ∧
      ClientSock.read.staticReply sampleMarshal [0] [0] []
          ⟨[⟨"B", ⟨[], false, true⟩⟩], ⟨[(0, true)]⟩⟩ "B" ⟨"", "B", "static"⟩
          ([], some "empty clients")
        = .ok ⟨[⟨"B", ⟨[sampleMarshal ⟨"B", "B", "empty clients"⟩,
                        sampleMarshal ⟨"B", "B", ""⟩], false, true⟩⟩], ⟨[(0, true)]⟩⟩ ∧
      ClientSock.read sampleMarshal [] [0] [0] [.register 0] [] worldPending 0
          ⟨"", "B", "static"⟩
        = .ok ⟨[⟨"B", ⟨[sampleMarshal ⟨"B", "B", "empty clients"⟩,
                        sampleMarshal ⟨"B", "B", ""⟩], false, true⟩⟩], ⟨[(0, true)]⟩⟩ :=
  ⟨rfl, rfl, rfl, rfl, rfl⟩
